import Mathlib

/-!
Verification development for a tree-sitter based source chunker (src/index.js).
Text is modelled as `List Char`; JavaScript string primitives used by the
source (`slice`, `trim`, `split(/\s+/)`, `split("\n")`, `lastIndexOf`,
`join("\n")`) are given explicit executable models below.
-/

set_option maxRecDepth 10000

/-- Model of the character class matched by the JavaScript regexp `\s`
(restricted to the ASCII whitespace characters that occur in source text). -/
def jsWS (c : Char) : Bool :=
  c = ' ' || c = '\t' || c = '\n' || c = '\r' || c = '\x0b' || c = '\x0c'

/-- Model of JavaScript `code.slice(a, b)` on a text given as a char list:
the characters at indices `a`, ..., `b - 1`, clamped to the text. -/
def jsSlice (code : List Char) (a b : Nat) : List Char :=
  (code.drop a).take (b - a)

/-- Removes trailing whitespace characters (the right half of `trim`). -/
def trimRight : List Char → List Char
  | [] => []
  | c :: cs =>
    match trimRight cs with
    | [] => if jsWS c then [] else [c]
    | r => c :: r

/-- Model of JavaScript `text.trim()`: strip leading and trailing whitespace. -/
def jsTrim (t : List Char) : List Char :=
  trimRight (t.dropWhile jsWS)

mutual

/-- Helper for the model of `text.split(/\s+/)`: `cur` is the reversed
accumulator of the token currently being read.  On a whitespace character the
current token is emitted (possibly empty, exactly as in JavaScript) and the
rest of the whitespace run is skipped by `skipWSRun`. -/
def splitWSAux : List Char → List Char → List (List Char)
  | [], cur => [cur.reverse]
  | c :: rest, cur =>
    if jsWS c then cur.reverse :: skipWSRun rest
    else splitWSAux rest (c :: cur)

/-- Skips the remainder of a whitespace run, then resumes `splitWSAux`; at
the end of the text it yields the trailing empty token JavaScript produces
for a string ending in whitespace. -/
def skipWSRun : List Char → List (List Char)
  | [] => [[]]
  | c :: rest => if jsWS c then skipWSRun rest else splitWSAux rest [c]

end

/-- Model of JavaScript `text.split(/\s+/)`. -/
def jsSplitWS (t : List Char) : List (List Char) :=
  splitWSAux t []

/-- The source's default token estimator (src/index.js, `countTokens`):
`text.split(/\s+/).length`. -/
def countTokens (t : List Char) : Nat :=
  (jsSplitWS t).length

/-- The estimate the eviction loop actually compares against the budget:
`countTokens(code.trim())`. -/
def countTokensTrim (t : List Char) : Nat :=
  countTokens (jsTrim t)

/-- Counts maximal runs of characters satisfying `p`; the flag records whether
the previous character was inside a run. -/
def pRunsAux (p : Char → Bool) : Bool → List Char → Nat
  | _, [] => 0
  | inRun, c :: cs =>
    if p c then (if inRun then 0 else 1) + pRunsAux p true cs
    else pRunsAux p false cs

/-- Modelled from the spec: the count of maximal runs of non-whitespace
characters in a text (spec 4.1, "count of maximal runs of non-whitespace
characters"), used to compare the source's estimator against the spec. -/
def specNonWSRunCount (t : List Char) : Nat :=
  pRunsAux (fun c => !jsWS c) false t

/-- Whether the first character of `t` is whitespace (false for empty). -/
def headWS (t : List Char) : Bool :=
  match t with
  | [] => false
  | c :: _ => jsWS c

/-- Whether the last character of `t` is whitespace (false for empty). -/
def lastWS (t : List Char) : Bool :=
  match t.getLast? with
  | none => false
  | some c => jsWS c

/-- Helper for `jsLastIndexOf`: whether `needle` occurs at index `i`. -/
def occursAt (haystack needle : List Char) (i : Nat) : Bool :=
  jsSlice haystack i (i + needle.length) = needle

/-- Scans indices `i, i-1, ..., 0` for the last occurrence of the needle. -/
def lastOccFrom (haystack needle : List Char) : Nat → Option Nat
  | 0 => if occursAt haystack needle 0 then some 0 else none
  | i + 1 =>
    if occursAt haystack needle (i + 1) then some (i + 1)
    else lastOccFrom haystack needle i

/-- Model of JavaScript `haystack.lastIndexOf(needle)`: `some i` for the start
of the last occurrence, `none` for the JavaScript result `-1`. -/
def jsLastIndexOf (haystack needle : List Char) : Option Nat :=
  lastOccFrom haystack needle haystack.length

/-- Model of JavaScript `text.split("\n")`. -/
def splitNl : List Char → List (List Char)
  | [] => [[]]
  | c :: cs =>
    if c = '\n' then [] :: splitNl cs
    else
      match splitNl cs with
      | l :: ls => (c :: l) :: ls
      | [] => [[c]]

/-- Model of JavaScript `lines.join("\n")`. -/
def joinNl (ls : List (List Char)) : List Char :=
  List.intercalate ['\n'] ls

/-- The source's blank-line test `lines[i].trim() === ""`. -/
def blankLine (l : List Char) : Bool :=
  (jsTrim l).isEmpty

/-- One step of the bottom-to-top blank-line scan of `collapseChildren`
(src/index.js lines 122-142), as a fold from the right.  The state is
`(pending, done)`: `pending` is the contiguous group of blank lines read so
far (`firstWhiteSpaceInGroup` tracking), `done` the lines below it.  A
non-blank line splices out a pending group of two or more blank lines
(`firstWhiteSpaceInGroup - i > 1`), otherwise keeps it. -/
def normStep (l : List Char) (st : List (List Char) × List (List Char)) :
    List (List Char) × List (List Char) :=
  if blankLine l then (l :: st.1, st.2)
  else ([], l :: (if 2 ≤ st.1.length then st.2 else st.1 ++ st.2))

/-- The blank-line-group normalization of `collapseChildren` at the level of
the split line list. -/
def collapseBlankGroups (lines : List (List Char)) : List (List Char) :=
  let st := lines.foldr normStep ([], [])
  st.1 ++ st.2

/-- The whitespace-group normalization applied after eviction:
split on newlines, collapse redundant blank-line groups, rejoin. -/
def jsNormalize (code : List Char) : List Char :=
  joinNl (collapseBlankGroups (splitNl code))

/-- Model of a tree-sitter syntax node as used by src/index.js: grammar
category (`type`), the field name under which the node sits in its parent
(for `childForFieldName`), byte offsets, row/column positions, the node's own
source text, and ordered children.  The tree owns its source, so `text` is a
field rather than a slice of a caller-supplied string. -/
inductive SNode where
  | mk : String → Option String → Nat → Nat → Nat → Nat → Nat → List Char →
      List SNode → SNode

/-- Grammar category of the node (`node.type`). -/
def SNode.type : SNode → String
  | .mk t _ _ _ _ _ _ _ _ => t

/-- Field name of the node inside its parent. -/
def SNode.fieldName : SNode → Option String
  | .mk _ f _ _ _ _ _ _ _ => f

/-- Start byte offset (`node.startPosition.index` / `node.startIndex`). -/
def SNode.startIdx : SNode → Nat
  | .mk _ _ s _ _ _ _ _ _ => s

/-- End byte offset (`node.endPosition.index` / `node.endIndex`). -/
def SNode.endIdx : SNode → Nat
  | .mk _ _ _ e _ _ _ _ _ => e

/-- Start row (`node.startPosition.row`). -/
def SNode.startRow : SNode → Nat
  | .mk _ _ _ _ r _ _ _ _ => r

/-- End row (`node.endPosition.row`). -/
def SNode.endRow : SNode → Nat
  | .mk _ _ _ _ _ r _ _ _ => r

/-- Start column (`node.startPosition.column`). -/
def SNode.startCol : SNode → Nat
  | .mk _ _ _ _ _ _ c _ _ => c

/-- The node's source text (`node.text`). -/
def SNode.text : SNode → List Char
  | .mk _ _ _ _ _ _ _ tx _ => tx

/-- Ordered children (`node.children`). -/
def SNode.children : SNode → List SNode
  | .mk _ _ _ _ _ _ _ _ ch => ch

/-- src/index.js `collapsedReplacement`: placeholder text for a collapsed
body node. -/
def collapsedReplacement (node : SNode) : List Char :=
  if node.type = "statement_block" || node.type = "compound_statement" then
    "\x7b ... \x7d".data
  else
    "...".data

/-- src/index.js `firstChild` (array-argument case, the only one exercised):
the first child whose grammar category is in the list. -/
def firstChild (node : SNode) (grammarName : List String) : Option SNode :=
  node.children.find? (fun child => grammarName.contains child.type)

/-- src/index.js `FUNCTION_BLOCK_NODE_TYPES`. -/
def FUNCTION_BLOCK_NODE_TYPES : List String :=
  ["block", "statement_block", "compound_statement"]

/-- src/index.js `FUNCTION_DECLARATION_NODE_TYPES`. -/
def FUNCTION_DECLARATION_NODE_TYPES : List String :=
  ["method_definition", "function_definition", "function_item",
    "function_declaration", "method_declaration"]

/-- The body-block categories `constructClassDefinitionChunk` passes to
`collapseChildren` as `blockTypes`. -/
def CLASS_BLOCK_TYPES : List String :=
  ["block", "class_body", "declaration_list"]

/-- The first phase of src/index.js `collapseChildren` (lines 83-108):
truncate the text at the node's end, find the body block, replace each
collapsible member's nested body with its placeholder working from the last
member to the first (building the `collapsedChildren` unit list with
`unshift`, so the list ends up in source order), then cut the text down to
the node's start.  Returns the working text and the evictable unit list. -/
def collapsePhase1 (node : SNode) (code0 : List Char)
    (blockTypes collapseTypes collapseBlockTypes : List String) :
    List Char × List (List Char) :=
  let code := code0.take node.endIdx
  match firstChild node blockTypes with
  | none => (code.drop node.startIdx, [])
  | some block =>
    let childrenToCollapse :=
      block.children.filter (fun child => collapseTypes.contains child.type)
    let st := childrenToCollapse.reverse.foldl
      (fun (st : List Char × List (List Char)) child =>
        match firstChild child collapseBlockTypes with
        | none => st
        | some grandChild =>
          let s := grandChild.startIdx
          let e := grandChild.endIdx
          let collapsedChild :=
            jsSlice st.1 child.startIdx s ++ collapsedReplacement grandChild
          (st.1.take s ++ collapsedReplacement grandChild ++ st.1.drop e,
            collapsedChild :: st.2))
      (code, [])
    (st.1.drop node.startIdx, st.2)

/-- The state of the eviction loop of `collapseChildren` (lines 109-120):
the working text, the remaining evictable units (`collapsedChildren`), the
`removedChild` flag, and the units popped so far (most recently popped
first is the head of nothing: the accumulator keeps them in source order,
because each `pop` takes the source-order-last remaining unit). -/
structure EvictState where
  code : List Char
  units : List (List Char)
  removed : Bool
  popped : List (List Char)
deriving DecidableEq

/-- The text surgery of one eviction-loop iteration (lines 116-119): locate
the last occurrence of the popped unit's recorded slice and splice it out,
but only when that occurrence starts at a strictly positive index
(`if (index > 0)`); a missing slice (JavaScript `-1`) or an occurrence at
index 0 leaves the text unchanged. -/
def evictOnce (code childCode : List Char) : List Char :=
  match jsLastIndexOf code childCode with
  | some index =>
    if 0 < index then code.take index ++ code.drop (index + childCode.length)
    else code
  | none => code

/-- The eviction loop of `collapseChildren` (lines 110-120), generalized over
the pluggable token estimator `est` (the source instantiates it with
`countTokensTrim`).  While the estimate is strictly over the budget and units
remain, pop the source-order-last unit, splice its text out via `evictOnce`,
and record that a child was removed. -/
def evictLoopW (est : List Char → Nat) (maxChunkSize : Nat)
    (st : EvictState) : EvictState :=
  if est st.code ≤ maxChunkSize then st
  else
    match h : st.units.getLast? with
    | none => st
    | some childCode =>
      evictLoopW est maxChunkSize
        ⟨evictOnce st.code childCode, st.units.dropLast, true,
          childCode :: st.popped⟩
  termination_by st.units.length
  decreasing_by
    have hne : st.units ≠ [] := by
      intro hnil
      rw [hnil] at h
      simp at h
    have hpos : 0 < st.units.length := List.length_pos.mpr hne
    simp only [List.length_dropLast]
    omega

/-- src/index.js `collapseChildren` up to (and including) the eviction loop:
phase 1 followed by the eviction loop with the source's estimator. -/
def collapseChildrenRun (node : SNode) (code : List Char)
    (blockTypes collapseTypes collapseBlockTypes : List String)
    (maxChunkSize : Nat) : EvictState :=
  let p := collapsePhase1 node code blockTypes collapseTypes collapseBlockTypes
  evictLoopW countTokensTrim maxChunkSize ⟨p.1, p.2, false, []⟩

/-- src/index.js `collapseChildren`: the collapsed rendering of a container
node, with the blank-line normalization applied exactly when the eviction
loop removed at least one child. -/
def collapseChildren (node : SNode) (code : List Char)
    (blockTypes collapseTypes collapseBlockTypes : List String)
    (maxChunkSize : Nat) : List Char :=
  let r := collapseChildrenRun node code blockTypes collapseTypes
    collapseBlockTypes maxChunkSize
  if r.removed then jsNormalize r.code else r.code

/-- src/index.js `constructClassDefinitionChunk`. -/
def constructClassDefinitionChunk (node : SNode) (code : List Char)
    (maxChunkSize : Nat) : List Char :=
  collapseChildren node code CLASS_BLOCK_TYPES FUNCTION_DECLARATION_NODE_TYPES
    FUNCTION_BLOCK_NODE_TYPES maxChunkSize

/-- src/index.js `constructFunctionDefinitionChunk`.  The source reads
`node.parent` and `node.parent.parent`; here the ancestor chain (nearest
first) is passed explicitly as `anc`.  The source takes
`node.children[node.children.length - 1]` as the body unconditionally; when
the node has no children that expression is `undefined` and the subsequent
property access throws a TypeError, modelled as `none`. -/
def constructFunctionDefinitionChunk (node : SNode) (anc : List SNode)
    (code : List Char) (maxChunkSize : Nat) : Option (List Char) :=
  match node.children.getLast? with
  | none => none
  | some bodyNode =>
    let funcText :=
      jsSlice code node.startIdx bodyNode.startIdx ++
        collapsedReplacement bodyNode
    match anc with
    | parent :: grandParent :: _ =>
      if ["block", "declaration_list"].contains parent.type &&
          ["class_definition", "impl_item"].contains grandParent.type then
        some (jsSlice code grandParent.startIdx parent.startIdx ++
          "...\n\n".data ++ List.replicate node.startCol ' ' ++ funcText)
      else
        some funcText
    | _ => some funcText

/-- The keys of src/index.js `collapsedNodeConstructors`. -/
def collapsedNodeConstructorKeys : List String :=
  ["class_definition", "class_declaration", "impl_item",
    "function_definition", "function_declaration", "function_item",
    "method_declaration"]

/-- Dispatch of `collapsedNodeConstructors[node.type]` for a key that is
present: the class-like keys map to `constructClassDefinitionChunk` (total),
the function-like keys to `constructFunctionDefinitionChunk` (may throw,
hence `Option`). -/
def runCollapsedConstructor (node : SNode) (anc : List SNode)
    (code : List Char) (maxChunkSize : Nat) : Option (List Char) :=
  if ["class_definition", "class_declaration", "impl_item"].contains
      node.type then
    some (constructClassDefinitionChunk node code maxChunkSize)
  else
    constructFunctionDefinitionChunk node anc code maxChunkSize

/-- The core fields of an emitted chunk before enrichment. -/
structure ChunkCore where
  content : List Char
  startLine : Nat
  endLine : Nat
deriving DecidableEq

/-- src/index.js `maybeYieldChunk`: the verbatim-fit emission.  The `code`
parameter is accepted and unused, as in the source. -/
def maybeYieldChunk (node : SNode) (code : List Char) (maxChunkSize : Nat)
    (root : Bool) : Option ChunkCore :=
  if root || collapsedNodeConstructorKeys.contains node.type then
    if countTokens node.text < maxChunkSize then
      some ⟨node.text, node.startRow + 1, node.endRow + 1⟩
    else none
  else none

/-- Model of tree-sitter `node.childForFieldName(name)`: the first child
stored under that field name. -/
def childForFieldName (node : SNode) (name : String) : Option SNode :=
  node.children.find? (fun child => child.fieldName == some name)

mutual

/-- Preorder traversal of a subtree (src/index.js `traverseNode`: the
callback sees the node itself, then each child's subtree in order). -/
def preorder : SNode → List SNode
  | node@(.mk _ _ _ _ _ _ _ _ ch) => node :: preorderList ch

/-- Preorder traversal of a list of sibling subtrees. -/
def preorderList : List SNode → List SNode
  | [] => []
  | c :: cs => preorder c ++ preorderList cs

end

/-- src/index.js `extractParameters`. -/
def extractParameters (parametersNode : Option SNode) :
    List (Option (List Char) × Option (List Char)) :=
  match parametersNode with
  | none => []
  | some p =>
    (p.children.filter (fun child => child.type == "parameter_declaration")).map
      (fun param =>
        ((childForFieldName param "type").map SNode.text,
          (childForFieldName param "declarator").map SNode.text))

/-- src/index.js `extractArguments`. -/
def extractArguments (argumentsNode : Option SNode) : List (List Char) :=
  match argumentsNode with
  | none => []
  | some a => (a.children.filter (fun child => child.type != ",")).map SNode.text

/-- A variable record collected by `extractFunctionBody`. -/
structure BodyVar where
  type : Option (List Char)
  name : Option (List Char)
  line : Nat

/-- A control-structure record collected by `extractFunctionBody`. -/
structure BodyCtrl where
  type : String
  condition : Option (List Char)
  line : Nat

/-- A call-site record collected by `extractFunctionBody`. -/
structure BodyCall where
  name : Option (List Char)
  arguments : List (List Char)
  line : Nat

/-- The body summary built by src/index.js `extractFunctionBody`; `vars`
models the source's `variables` list (that spelling is reserved in Lean). -/
structure BodyDetails where
  vars : List BodyVar
  controlStructures : List BodyCtrl
  functionCalls : List BodyCall

/-- src/index.js `extractFunctionBody`: traverse the body subtree in preorder
and collect declarations, control structures and call sites.  A missing body
node yields the empty-string sentinel of the source, modelled as `none`.
The `code` parameter is accepted and unused, as in the source. -/
def extractFunctionBody (bodyNode : Option SNode) (code : List Char) :
    Option BodyDetails :=
  match bodyNode with
  | none => none
  | some b =>
    some
      { vars := (preorder b).filterMap fun n =>
          if n.type == "declaration" then
            some ⟨(childForFieldName n "type").map SNode.text,
              (childForFieldName n "declarator").map SNode.text,
              n.startRow + 1⟩
          else none
        controlStructures := (preorder b).filterMap fun n =>
          if n.type == "if_statement" || n.type == "for_statement" ||
              n.type == "while_statement" || n.type == "do_statement" then
            some ⟨n.type, (childForFieldName n "condition").map SNode.text,
              n.startRow + 1⟩
          else none
        functionCalls := (preorder b).filterMap fun n =>
          if n.type == "call_expression" then
            some ⟨(childForFieldName n "function").map SNode.text,
              extractArguments (childForFieldName n "arguments"),
              n.startRow + 1⟩
          else none }

/-- The record built by src/index.js `extractNodeDetails`; fields that the
switch does not set for a given node type stay at their defaults
(JavaScript `undefined` is `none` / `[]` / `false`). -/
structure Details where
  type : String
  startLine : Nat
  endLine : Nat
  content : List Char
  name : Option (List Char) := none
  returnType : Option (List Char) := none
  parameters : List (Option (List Char) × Option (List Char)) := []
  body : Option BodyDetails := none
  declarationType : Option (List Char) := none
  declarationName : Option (List Char) := none
  isPointer : Bool := false
  usage : Option String := none
  pointerName : Option (List Char) := none
  functionName : Option (List Char) := none
  arguments : List (List Char) := []
  value : Option (List Char) := none
  path : Option (List Char) := none

/-- An access / call site pushed into the global context maps. -/
structure AccessSite where
  file : Option (List Char)
  function : Option (List Char)
  line : Nat

/-- A `globalContext.variables` entry (`{...details, file, function,
accesses}`). -/
structure VarEntry where
  details : Details
  file : Option (List Char)
  function : Option (List Char)
  accesses : List AccessSite

/-- A `globalContext.functions` entry (`{...details, file, calls}`). -/
structure FuncEntry where
  details : Details
  file : Option (List Char)
  calls : List AccessSite

/-- A `globalContext.macros` entry (`{...details, file, uses}`). -/
structure MacroEntry where
  details : Details
  file : Option (List Char)
  uses : List AccessSite

/-- The process-wide `globalContext` of src/index.js, modelled as explicit
state.  The maps are association lists with JavaScript `Map` semantics. -/
structure Ctx where
  vars : List (Option (List Char) × VarEntry)
  functions : List (Option (List Char) × FuncEntry)
  macros : List (Option (List Char) × MacroEntry)
  currentFunction : Option (List Char)
  currentFile : Option (List Char)

/-- JavaScript `Map.set`: overwrite in place when the key exists, append
otherwise. -/
def setAssoc {β : Type} (m : List (Option (List Char) × β))
    (k : Option (List Char)) (v : β) : List (Option (List Char) × β) :=
  if m.any (fun p => p.1 == k) then
    m.map (fun p => if p.1 == k then (k, v) else p)
  else m ++ [(k, v)]

/-- Push an access site onto an existing variables entry (the `identifier`
case of `updateGlobalContext`); absent keys leave the map unchanged. -/
def pushAccess (m : List (Option (List Char) × VarEntry))
    (k : Option (List Char)) (site : AccessSite) :
    List (Option (List Char) × VarEntry) :=
  m.map (fun p =>
    if p.1 == k then (p.1, { p.2 with accesses := p.2.accesses ++ [site] })
    else p)

/-- Push a call site onto an existing functions entry (the `call_expression`
case of `updateGlobalContext`); absent keys leave the map unchanged. -/
def pushCall (m : List (Option (List Char) × FuncEntry))
    (k : Option (List Char)) (site : AccessSite) :
    List (Option (List Char) × FuncEntry) :=
  m.map (fun p =>
    if p.1 == k then (p.1, { p.2 with calls := p.2.calls ++ [site] })
    else p)

/-- src/index.js `extractNodeDetails`.  Besides building the details record
it assigns `globalContext.currentFunction` in the `function_definition`
case, hence the state-passing result. -/
def extractNodeDetails (node : SNode) (code : List Char) (ctx : Ctx) :
    Details × Ctx :=
  let base : Details :=
    { type := node.type
      startLine := node.startRow + 1
      endLine := node.endRow + 1
      content := node.text }
  if node.type == "function_definition" then
    let nm := (childForFieldName node "declarator").map SNode.text
    let rT := (childForFieldName node "type").map SNode.text
    let ps := extractParameters (childForFieldName node "parameters")
    let bd := extractFunctionBody (childForFieldName node "body") code
    ({ base with name := nm, returnType := rT, parameters := ps, body := bd },
      { ctx with currentFunction := nm })
  else if node.type == "declaration" then
    let dType := (childForFieldName node "type").map SNode.text
    let dName := (childForFieldName node "declarator").map SNode.text
    let isP : Bool :=
      match dType with
      | some t => t.contains '*'
      | none => false
    ({ base with
        declarationType := dType
        declarationName := dName
        isPointer := isP }, ctx)
  else if node.type == "identifier" then
    ({ base with name := some node.text, usage := some "access" }, ctx)
  else if node.type == "pointer_expression" then
    let pN := (childForFieldName node "argument").map SNode.text
    ({ base with pointerName := pN, usage := some "dereference" }, ctx)
  else if node.type == "call_expression" then
    let fN := (childForFieldName node "function").map SNode.text
    let ags := extractArguments (childForFieldName node "arguments")
    ({ base with functionName := fN, arguments := ags }, ctx)
  else if node.type == "macro_definition" then
    let nm := (childForFieldName node "name").map SNode.text
    let vl := (childForFieldName node "value").map SNode.text
    ({ base with name := nm, value := vl }, ctx)
  else if node.type == "preproc_include" then
    let pth := (childForFieldName node "path").map SNode.text
    ({ base with path := pth }, ctx)
  else (base, ctx)

mutual

/-- src/index.js `processNode`: set `currentFile`, extract the details,
update the global context, and return the details. -/
def processNode (node : SNode) (code : List Char)
    (filePath : Option (List Char)) (ctx : Ctx) : Details × Ctx :=
  let ctx1 := { ctx with currentFile := filePath }
  let r := extractNodeDetails node code ctx1
  (r.1, updateGlobalContext r.1 node r.2)
  termination_by (sizeOf node, 1)

/-- src/index.js `updateGlobalContext`: record the details in the
appropriate global map, then recurse into the children via `processNode`.
The source passes `globalContext.currentFile` in the `code` position of the
recursive call and leaves `filePath` undefined; both are modelled exactly. -/
def updateGlobalContext (details : Details) (node : SNode) (ctx : Ctx) :
    Ctx :=
  match node with
  | .mk _ _ _ _ _ _ _ _ ch =>
    let ctx1 :=
      if details.type == "function_definition" then
        let fs := setAssoc ctx.functions details.name
          ⟨details, ctx.currentFile, []⟩
        { ctx with functions := fs }
      else if details.type == "declaration" then
        match details.declarationName with
        | some nm =>
          if nm.isEmpty then ctx
          else
            let vs := setAssoc ctx.vars (some nm)
              ⟨details, ctx.currentFile, ctx.currentFunction, []⟩
            { ctx with vars := vs }
        | none => ctx
      else if details.type == "identifier" then
        let vs := pushAccess ctx.vars details.name
          ⟨ctx.currentFile, ctx.currentFunction, details.startLine⟩
        { ctx with vars := vs }
      else if details.type == "call_expression" then
        let fs := pushCall ctx.functions details.functionName
          ⟨ctx.currentFile, ctx.currentFunction, details.startLine⟩
        { ctx with functions := fs }
      else if details.type == "macro_definition" then
        let ms := setAssoc ctx.macros details.name ⟨details, ctx.currentFile, []⟩
        { ctx with macros := ms }
      else ctx
    updateChildren ch ctx1
  termination_by (sizeOf node, 0)

/-- The child loop at the end of `updateGlobalContext`. -/
def updateChildren : List SNode → Ctx → Ctx
  | [], ctx => ctx
  | child :: rest, ctx =>
    let r := processNode child (ctx.currentFile.getD []) none ctx
    updateChildren rest r.2
  termination_by l _ => (sizeOf l, 2)

end

/-- An emitted chunk: the three core fields plus the enrichment details the
generator spreads into the yielded object. -/
structure Chunk where
  content : List Char
  startLine : Nat
  endLine : Nat
  details : Details

/-- The value actually yielded by both generator definitions.  In
`{...chunk, ...details}` and in `{content, startLine, endLine, ...details}`
the spread of the details object comes last, so its `content`, `startLine`
and `endLine` properties override the explicitly listed ones; the final
object's core fields therefore always come from the details record. -/
def chunkOfDetails (d : Details) : Chunk :=
  ⟨d.content, d.startLine, d.endLine, d⟩

mutual

/-- The first textual definition of `getSmartCollapsedChunks`
(src/index.js lines 391-413), which wires enrichment through the stateful
`processNode`.  The generator is modelled as the list of yielded chunks plus
a flag that is `false` when a collapsed-node constructor threw (aborting the
iteration), threading the global context. -/
def getSmartCollapsedChunks1 : SNode → List SNode → List Char → Nat →
    Option (List Char) → Bool → Ctx → List Chunk × Bool × Ctx
  | node@(.mk _ _ _ _ _ _ _ _ ch), anc, code, maxChunkSize, filePath, root,
      ctx =>
    match maybeYieldChunk node code maxChunkSize root with
    | some _chunk =>
      let r := processNode node code filePath ctx
      ([chunkOfDetails r.1], true, r.2)
    | none =>
      if collapsedNodeConstructorKeys.contains node.type then
        match runCollapsedConstructor node anc code maxChunkSize with
        | none => ([], false, ctx)
        | some _content =>
          let r := processNode node code filePath ctx
          let rs := getSmartCollapsedChunks1List ch (node :: anc) code
            maxChunkSize filePath r.2
          (chunkOfDetails r.1 :: rs.1, rs.2.1, rs.2.2)
      else
        getSmartCollapsedChunks1List ch (node :: anc) code maxChunkSize
          filePath ctx
  termination_by n _ _ _ _ _ _ => sizeOf n

/-- The child loop of the first generator definition. -/
def getSmartCollapsedChunks1List : List SNode → List SNode → List Char →
    Nat → Option (List Char) → Ctx → List Chunk × Bool × Ctx
  | [], _, _, _, _, ctx => ([], true, ctx)
  | child :: rest, anc, code, maxChunkSize, filePath, ctx =>
    let r := getSmartCollapsedChunks1 child anc code maxChunkSize filePath
      false ctx
    if r.2.1 then
      let rs := getSmartCollapsedChunks1List rest anc code maxChunkSize
        filePath r.2.2
      (r.1 ++ rs.1, rs.2.1, rs.2.2)
    else (r.1, false, r.2.2)
  termination_by l _ _ _ _ _ => sizeOf l

end

mutual

/-- The second textual definition of `getSmartCollapsedChunks`
(src/index.js lines 436-462), which wires enrichment through the stateless
detail extraction `extractNodeDetails` (stateless except for the
`currentFunction` assignment inside it) and takes no file path. -/
def getSmartCollapsedChunks2 : SNode → List SNode → List Char → Nat →
    Bool → Ctx → List Chunk × Bool × Ctx
  | node@(.mk _ _ _ _ _ _ _ _ ch), anc, code, maxChunkSize, root, ctx =>
    match maybeYieldChunk node code maxChunkSize root with
    | some _chunk =>
      let r := extractNodeDetails node code ctx
      ([chunkOfDetails r.1], true, r.2)
    | none =>
      if collapsedNodeConstructorKeys.contains node.type then
        match runCollapsedConstructor node anc code maxChunkSize with
        | none => ([], false, ctx)
        | some _content =>
          let r := extractNodeDetails node code ctx
          let rs := getSmartCollapsedChunks2List ch (node :: anc) code
            maxChunkSize r.2
          (chunkOfDetails r.1 :: rs.1, rs.2.1, rs.2.2)
      else
        getSmartCollapsedChunks2List ch (node :: anc) code maxChunkSize ctx
  termination_by n _ _ _ _ _ => sizeOf n

/-- The child loop of the second generator definition. -/
def getSmartCollapsedChunks2List : List SNode → List SNode → List Char →
    Nat → Ctx → List Chunk × Bool × Ctx
  | [], _, _, _, ctx => ([], true, ctx)
  | child :: rest, anc, code, maxChunkSize, ctx =>
    let r := getSmartCollapsedChunks2 child anc code maxChunkSize false ctx
    if r.2.1 then
      let rs := getSmartCollapsedChunks2List rest anc code maxChunkSize r.2.2
      (r.1 ++ rs.1, rs.2.1, rs.2.2)
    else (r.1, false, r.2.2)
  termination_by l _ _ _ _ => sizeOf l

end

/-- The core-contract projection of a chunk: content, startLine, endLine. -/
def chunkProj (c : Chunk) : List Char × Nat × Nat :=
  (c.content, c.startLine, c.endLine)

/-- Source text of the running container example: a class with two methods. -/
def cxCode : List Char :=
  "class A \x7b\nvoid f() \x7b aa bb; \x7d\nvoid g() \x7b cc; \x7d\n\x7d".data

/-- Body of the first method of the example container. -/
def cxBodyF : SNode :=
  .mk "compound_statement" (some "body") 19 29 1 1 9 "\x7b aa bb; \x7d".data []

/-- First method of the example container. -/
def cxFunF : SNode :=
  .mk "function_definition" none 10 29 1 1 0
    "void f() \x7b aa bb; \x7d".data [cxBodyF]

/-- Body of the second method of the example container. -/
def cxBodyG : SNode :=
  .mk "compound_statement" (some "body") 39 46 2 2 9 "\x7b cc; \x7d".data []

/-- Second method of the example container. -/
def cxFunG : SNode :=
  .mk "function_definition" none 30 46 2 2 0
    "void g() \x7b cc; \x7d".data [cxBodyG]

/-- Member list of the example container. -/
def cxBlock : SNode :=
  .mk "declaration_list" (some "body") 8 48 0 3 8
    (jsSlice cxCode 8 48) [cxFunF, cxFunG]

/-- The example container node. -/
def cxClass : SNode :=
  .mk "class_definition" none 0 48 0 3 0 cxCode [cxBlock]

/-- Source text of the nested-method example: a method inside a
`class_declaration` whose body block is a `class_body`. -/
def nestCode : List Char :=
  "class B \x7b\n  void h() \x7b x; \x7d\n\x7d".data

/-- Body of the nested method. -/
def nestBody : SNode :=
  .mk "compound_statement" (some "body") 21 27 1 1 11 "\x7b x; \x7d".data []

/-- The nested method node (a direct member of the class body). -/
def nestFun : SNode :=
  .mk "function_definition" none 12 27 1 1 2
    "void h() \x7b x; \x7d".data [nestBody]

/-- The `class_body` parent of the nested method. -/
def nestClassBody : SNode :=
  .mk "class_body" (some "body") 8 29 0 2 8 (jsSlice nestCode 8 29) [nestFun]

/-- The `class_declaration` grandparent of the nested method. -/
def nestClassDecl : SNode :=
  .mk "class_declaration" none 0 29 0 2 0 nestCode [nestClassBody]

/-- Source text of the bodyless-function example: a C prototype. -/
def protoCode : List Char :=
  "int f(void);".data

/-- The trailing semicolon node of the prototype. -/
def protoSemi : SNode :=
  .mk ";" none 11 12 0 0 11 ";".data []

/-- The declarator of the prototype. -/
def protoDecl : SNode :=
  .mk "function_declarator" (some "declarator") 4 11 0 0 4
    "f(void)".data []

/-- The return type of the prototype. -/
def protoType : SNode :=
  .mk "primitive_type" (some "type") 0 3 0 0 0 "int".data []

/-- A function-like node whose last child is not a body block: a
`function_declaration` ending in a semicolon. -/
def protoFun : SNode :=
  .mk "function_declaration" none 0 12 0 0 0 protoCode
    [protoType, protoDecl, protoSemi]

/-- A node of the grammar category `"block"`, one of the body categories in
`FUNCTION_BLOCK_NODE_TYPES`. -/
def blockNode : SNode :=
  .mk "block" none 0 2 0 0 0 "\x7b\x7d".data []

/-- Working text for the exhaustion example of the eviction loop. -/
def exCode : List Char :=
  "ab".data

/-- Evictable units for the exhaustion example: one absent slice and one
slice whose last occurrence is at offset 0. -/
def exUnits : List (List Char) :=
  ["zz".data, "ab".data]

theorem evictLoopW_stop (est : List Char → Nat) (maxChunkSize : Nat)
    (st : EvictState) (h : est st.code ≤ maxChunkSize) :
    evictLoopW est maxChunkSize st = st := by
  rw [evictLoopW]
  simp [h]

theorem evictLoopW_exhaust (est : List Char → Nat) (maxChunkSize : Nat)
    (st : EvictState) (h : st.units.getLast? = none) :
    evictLoopW est maxChunkSize st = st := by
  rw [evictLoopW]
  split
  · rfl
  · split
    · rfl
    · rename_i u hu
      rw [h] at hu
      exact absurd hu (by simp)

theorem evictLoopW_step (est : List Char → Nat) (maxChunkSize : Nat)
    (st : EvictState) (u : List Char)
    (h1 : ¬ est st.code ≤ maxChunkSize) (h2 : st.units.getLast? = some u) :
    evictLoopW est maxChunkSize st =
      evictLoopW est maxChunkSize
        ⟨evictOnce st.code u, st.units.dropLast, true, u :: st.popped⟩ := by
  conv_lhs => rw [evictLoopW]
  split
  · exact absurd (by assumption) h1
  · split
    · rename_i hu
      rw [h2] at hu
      exact absurd hu (by simp)
    · rename_i v hv
      rw [h2] at hv
      cases hv
      rfl

theorem evictLoopW_spec (est : List Char → Nat) (maxChunkSize : Nat) :
    ∀ (n : Nat) (st : EvictState), st.units.length = n →
    ∃ k, k ≤ n ∧
      (evictLoopW est maxChunkSize st).units = st.units.take (n - k) ∧
      (evictLoopW est maxChunkSize st).popped =
        st.units.drop (n - k) ++ st.popped ∧
      (est (evictLoopW est maxChunkSize st).code ≤ maxChunkSize ∨
        (evictLoopW est maxChunkSize st).units = []) := by
  intro n
  induction n using Nat.strong_induction_on with
  | _ n ih =>
    intro st hlen
    by_cases hc : est st.code ≤ maxChunkSize
    · refine ⟨0, Nat.zero_le _, ?_, ?_, ?_⟩ <;>
        rw [evictLoopW_stop _ _ _ hc]
      · rw [Nat.sub_zero, ← hlen, List.take_length]
      · rw [Nat.sub_zero, ← hlen, List.drop_length, List.nil_append]
      · exact Or.inl hc
    · cases hg : st.units.getLast? with
      | none =>
        have hnil : st.units = [] := List.getLast?_eq_none_iff.mp hg
        refine ⟨0, Nat.zero_le _, ?_, ?_, ?_⟩ <;>
          rw [evictLoopW_exhaust _ _ _ hg]
        · rw [Nat.sub_zero, ← hlen, List.take_length]
        · rw [Nat.sub_zero, ← hlen, List.drop_length, List.nil_append]
        · exact Or.inr hnil
      | some u =>
        have hne : st.units ≠ [] := by
          intro hh
          rw [hh] at hg
          simp at hg
        have hpos : 0 < n := hlen ▸ List.length_pos.mpr hne
        have hsplit : st.units.dropLast ++ [u] = st.units :=
          List.dropLast_append_getLast? u hg
        have hlen' : st.units.dropLast.length = n - 1 := by
          rw [List.length_dropLast, hlen]
        obtain ⟨k, hk, hu, hp, hcond⟩ :=
          ih (n - 1) (by omega)
            ⟨evictOnce st.code u, st.units.dropLast, true, u :: st.popped⟩
            hlen'
        rw [evictLoopW_step _ _ _ _ hc hg]
        have hix : n - (k + 1) = n - 1 - k := by omega
        have hle : n - 1 - k ≤ st.units.dropLast.length := by omega
        refine ⟨k + 1, by omega, ?_, ?_, hcond⟩
        · rw [hu, hix]
          conv_rhs => rw [← hsplit]
          rw [List.take_append_of_le_length hle]
        · rw [hp, hix]
          conv_rhs => rw [← hsplit]
          rw [List.drop_append_of_le_length hle]
          simp

theorem evictOnce_none (code u : List Char) (h : jsLastIndexOf code u = none) :
    evictOnce code u = code := by
  unfold evictOnce
  rw [h]

theorem evictOnce_zero (code u : List Char) (h : jsLastIndexOf code u = some 0) :
    evictOnce code u = code := by
  unfold evictOnce
  rw [h]
  simp

theorem lastOccFrom_occurs (haystack needle : List Char) :
    ∀ (j i : Nat), lastOccFrom haystack needle j = some i →
      occursAt haystack needle i = true := by
  intro j
  induction j with
  | zero =>
    intro i h
    unfold lastOccFrom at h
    by_cases ho : occursAt haystack needle 0
    · rw [if_pos ho] at h
      cases h
      exact ho
    · rw [if_neg ho] at h
      cases h
  | succ j ih =>
    intro i h
    unfold lastOccFrom at h
    by_cases ho : occursAt haystack needle (j + 1)
    · rw [if_pos ho] at h
      cases h
      exact ho
    · rw [if_neg ho] at h
      exact ih i h

theorem occursAt_le_length (haystack needle : List Char) (i : Nat)
    (h : occursAt haystack needle i = true) :
    i + needle.length ≤ haystack.length ∨ haystack.length ≤ i := by
  unfold occursAt jsSlice at h
  have hlen := congrArg List.length (of_decide_eq_true h)
  simp [List.length_take, List.length_drop] at hlen
  omega

theorem occursAt_add_le (haystack needle : List Char) (i : Nat)
    (h : occursAt haystack needle i = true) (hne : needle ≠ []) :
    i + needle.length ≤ haystack.length := by
  unfold occursAt jsSlice at h
  have hlen := congrArg List.length (of_decide_eq_true h)
  simp [List.length_take, List.length_drop] at hlen
  have : 0 < needle.length := List.length_pos.mpr hne
  omega

/-- C10: each eviction-loop iteration modifies the working text only when the
last occurrence of the popped unit's recorded slice lies at a strictly
positive offset (part 3: then the text strictly shortens); an absent slice
(part 1) or an occurrence at offset 0 (part 2) leaves the text unchanged,
while the loop still discards the popped unit, so the loop can run through
every unit without shortening the text (part 4: a concrete run popping both
units of `exUnits` and returning the working text `exCode` unchanged,
with the estimate still over budget). -/
theorem evictOnce_modifies_only_at_positive_index :
    (∀ code u, jsLastIndexOf code u = none → evictOnce code u = code) ∧
    (∀ code u, jsLastIndexOf code u = some 0 → evictOnce code u = code) ∧
    (∀ code u i, jsLastIndexOf code u = some i → 0 < i → u ≠ [] →
      (evictOnce code u).length < code.length) ∧
    evictLoopW countTokensTrim 0 ⟨exCode, exUnits, false, []⟩ =
      ⟨exCode, [], true, exUnits⟩ := by
  refine ⟨evictOnce_none, evictOnce_zero, ?_, ?_⟩
  · intro code u i h hi hne
    have hocc : occursAt code u i = true :=
      lastOccFrom_occurs code u code.length i h
    have hle : i + u.length ≤ code.length := occursAt_add_le code u i hocc hne
    have hpos : 0 < u.length := List.length_pos.mpr hne
    unfold evictOnce
    rw [h]
    dsimp only
    rw [if_pos hi]
    simp only [List.length_append, List.length_take, List.length_drop]
    omega
  · rw [evictLoopW_step _ _ _ ("ab".data) (by decide) (by decide)]
    rw [evictLoopW_step _ _ _ ("zz".data) (by decide) (by decide)]
    rw [evictLoopW_exhaust _ _ _ (by decide)]
    decide

/-- Witness for C10: the three conditional parts applied at concrete inputs
(`"zzz"` absent from `"abc"`; `"abc"` occurring in itself at offset 0;
`"abc"` occurring in `"xabc"` at offset 1). -/
theorem evictOnce_modifies_only_at_positive_index_witness :
    evictOnce "abc".data "zzz".data = "abc".data ∧
    evictOnce "abc".data "abc".data = "abc".data ∧
    (evictOnce "xabc".data "abc".data).length < "xabc".data.length :=
  ⟨evictOnce_modifies_only_at_positive_index.1 "abc".data "zzz".data
      (by decide),
    evictOnce_modifies_only_at_positive_index.2.1 "abc".data "abc".data
      (by decide),
    evictOnce_modifies_only_at_positive_index.2.2.1 "xabc".data "abc".data 1
      (by decide) (by decide) (by decide)⟩

/-- C2 (amended): the eviction loop of `collapseChildren` evicts units
last-declared-first: for some `k`, the remaining unit list is the first
`n - k` units in source order and the popped units are exactly the last `k`
(the source-order suffix), and the loop stops as soon as the estimate of the
trimmed working text is at or under the budget (not strictly under, as the
claim stated) or the units are exhausted. -/
theorem collapseChildren_evicts_last_first (node : SNode) (code : List Char)
    (blockTypes collapseTypes collapseBlockTypes : List String)
    (maxChunkSize : Nat) :
    let units :=
      (collapsePhase1 node code blockTypes collapseTypes collapseBlockTypes).2
    let run := collapseChildrenRun node code blockTypes collapseTypes
      collapseBlockTypes maxChunkSize
    ∃ k, k ≤ units.length ∧
      run.units = units.take (units.length - k) ∧
      run.popped = units.drop (units.length - k) ∧
      (countTokensTrim run.code ≤ maxChunkSize ∨ run.units = []) := by
  intro units run
  obtain ⟨k, hk, hu, hp, hcond⟩ :=
    evictLoopW_spec countTokensTrim maxChunkSize units.length
      ⟨(collapsePhase1 node code blockTypes collapseTypes
          collapseBlockTypes).1, units, false, []⟩ rfl
  refine ⟨k, hk, hu, ?_, hcond⟩
  simpa using hp

/-- Counterexample to C2 as stated: a container whose collapsed rendering
estimates at exactly the budget (14).  The claim's reading ("while at/over
budget, evict; stop as soon as the estimate is under budget") forces an
eviction here, but the loop (guard `countTokens(code.trim()) > maxChunkSize`)
performs none: it returns with both units unpopped and the estimate equal to
the budget, not under it. -/
theorem collapseChildren_evicts_last_first_counterexample :
    evictLoopW countTokensTrim 14
        ⟨(collapsePhase1 cxClass cxCode CLASS_BLOCK_TYPES
            FUNCTION_DECLARATION_NODE_TYPES FUNCTION_BLOCK_NODE_TYPES).1,
          (collapsePhase1 cxClass cxCode CLASS_BLOCK_TYPES
            FUNCTION_DECLARATION_NODE_TYPES FUNCTION_BLOCK_NODE_TYPES).2,
          false, []⟩ =
      ⟨(collapsePhase1 cxClass cxCode CLASS_BLOCK_TYPES
          FUNCTION_DECLARATION_NODE_TYPES FUNCTION_BLOCK_NODE_TYPES).1,
        (collapsePhase1 cxClass cxCode CLASS_BLOCK_TYPES
          FUNCTION_DECLARATION_NODE_TYPES FUNCTION_BLOCK_NODE_TYPES).2,
        false, []⟩ ∧
    countTokensTrim (collapsePhase1 cxClass cxCode CLASS_BLOCK_TYPES
      FUNCTION_DECLARATION_NODE_TYPES FUNCTION_BLOCK_NODE_TYPES).1 = 14 ∧
    (collapsePhase1 cxClass cxCode CLASS_BLOCK_TYPES
      FUNCTION_DECLARATION_NODE_TYPES FUNCTION_BLOCK_NODE_TYPES).2 ≠ [] := by
  refine ⟨evictLoopW_stop _ _ _ (by decide), by decide, by decide⟩

/-- C8: for every estimator, monotone or not, the eviction loop makes at most
one pass over the evictable units: the number of popped units is at most the
number of units it started with (and together with the remaining units they
account for exactly the initial list).  Termination itself is witnessed by
`evictLoopW` being a total function. -/
theorem evictLoop_at_most_one_pass (est : List Char → Nat)
    (maxChunkSize : Nat) (code : List Char) (units : List (List Char)) :
    (evictLoopW est maxChunkSize ⟨code, units, false, []⟩).popped.length ≤
      units.length ∧
    (evictLoopW est maxChunkSize ⟨code, units, false, []⟩).units.length +
      (evictLoopW est maxChunkSize ⟨code, units, false, []⟩).popped.length =
      units.length := by
  obtain ⟨k, hk, hu, hp, _⟩ :=
    evictLoopW_spec est maxChunkSize units.length ⟨code, units, false, []⟩ rfl
  rw [hu, hp]
  simp [List.length_take, List.length_drop]

/-- C3 (amended): the placeholder for a collapsed body is `"{ ... }"` exactly
when the body node's category is `statement_block` or `compound_statement`;
the category `block`, although accepted by the collapser as a function-body
type (it is in `FUNCTION_BLOCK_NODE_TYPES`), yields the bare `"..."`. -/
theorem collapsedReplacement_brace_iff (node : SNode) :
    collapsedReplacement node = "\x7b ... \x7d".data ↔
      (node.type = "statement_block" ∨ node.type = "compound_statement") := by
  unfold collapsedReplacement
  by_cases h : node.type = "statement_block" ||
      node.type = "compound_statement"
  · rw [if_pos h]
    simp only [Bool.or_eq_true, decide_eq_true_eq] at h
    exact iff_of_true rfl h
  · rw [if_neg h]
    simp only [Bool.or_eq_true, decide_eq_true_eq, not_or] at h
    exact iff_of_false (by decide) (fun hor => hor.elim h.1 h.2)

/-- Counterexample to C3 as stated: a body node of category `"block"` is one
of the brace-delimited block types the collapser accepts as a function body
(`FUNCTION_BLOCK_NODE_TYPES`), yet its replacement is `"..."`, not
`"{ ... }"`. -/
theorem collapsedReplacement_brace_iff_counterexample :
    collapsedReplacement blockNode = "...".data ∧
    FUNCTION_BLOCK_NODE_TYPES.contains "block" = true ∧
    "...".data ≠ "\x7b ... \x7d".data := by
  decide

/-- C5 (amended): collapsing a function-like node with no children at all
aborts with a JavaScript TypeError (modelled: `none`) rather than a
descriptive structural error; for a node that has children the construction
always succeeds, using the last child as the body whether or not it is a
body block. -/
theorem constructFunction_none_iff_no_children (node : SNode)
    (anc : List SNode) (code : List Char) (maxChunkSize : Nat) :
    constructFunctionDefinitionChunk node anc code maxChunkSize = none ↔
      node.children = [] := by
  unfold constructFunctionDefinitionChunk
  cases hg : node.children.getLast? with
  | none => simp [List.getLast?_eq_none_iff.mp hg]
  | some b =>
    have hne : node.children ≠ [] := by
      intro hh
      rw [hh] at hg
      simp at hg
    dsimp only
    cases anc with
    | nil => simp [hne]
    | cons p rest =>
      cases rest with
      | nil => simp [hne]
      | cons gp rest2 =>
        split
        · split <;> simp [hne]
        · rename_i himp
          exact (himp p gp rest2 rfl).elim

/-- Counterexample to C5 as stated: a `function_declaration` node whose last
child is the semicolon `";"` (no discoverable body block) does not fail at
all — the collapser silently emits the signature up to the semicolon plus
the `"..."` placeholder, i.e. text built from a non-body last child. -/
theorem constructFunction_none_iff_no_children_counterexample :
    constructFunctionDefinitionChunk protoFun [] protoCode 1000 =
      some "int f(void)...".data ∧
    (protoFun.children.getLast?).map SNode.type = some ";" ∧
    FUNCTION_BLOCK_NODE_TYPES.contains ";" = false ∧
    collapsedNodeConstructorKeys.contains "function_declaration" = true :=
  ⟨by decide, rfl, by decide, by decide⟩

/-- C4 (amended): the collapsed rendering of a function-like node consults
exactly the two nearest ancestors and no deeper ones (part 1: the result is
invariant under everything beyond parent and grandparent), and it is
prefixed with the container scaffold, ellipsis line and indentation exactly
when the parent's category is `block` or `declaration_list` and the
grandparent's is `class_definition` or `impl_item` (part 2) — not for every
container/body-block pairing, as the claim stated. -/
theorem constructFunction_prefix_exact (node parent grandParent : SNode)
    (rest rest' : List SNode) (code : List Char) (maxChunkSize : Nat) :
    constructFunctionDefinitionChunk node (parent :: grandParent :: rest)
        code maxChunkSize =
      constructFunctionDefinitionChunk node (parent :: grandParent :: rest')
        code maxChunkSize ∧
    (∀ bodyNode, node.children.getLast? = some bodyNode →
      (["block", "declaration_list"].contains parent.type &&
        ["class_definition", "impl_item"].contains grandParent.type) = true →
      constructFunctionDefinitionChunk node (parent :: grandParent :: rest)
          code maxChunkSize =
        some (jsSlice code grandParent.startIdx parent.startIdx ++
          "...\n\n".data ++ List.replicate node.startCol ' ' ++
          (jsSlice code node.startIdx bodyNode.startIdx ++
            collapsedReplacement bodyNode))) := by
  constructor
  · unfold constructFunctionDefinitionChunk
    cases node.children.getLast? <;> rfl
  · intro bodyNode hb hcond
    unfold constructFunctionDefinitionChunk
    rw [hb]
    dsimp only
    rw [if_pos hcond]

/-- Witness for C4 (amended): the first method of the example container sits
under a `declaration_list` inside a `class_definition`, and its rendering is
the container scaffold, an ellipsis line, indentation, and the collapsed
signature. -/
theorem constructFunction_prefix_exact_witness :
    constructFunctionDefinitionChunk cxFunF [cxBlock, cxClass] cxCode 14 =
      some (jsSlice cxCode cxClass.startIdx cxBlock.startIdx ++
        "...\n\n".data ++ List.replicate cxFunF.startCol ' ' ++
        (jsSlice cxCode cxFunF.startIdx cxBodyF.startIdx ++
          collapsedReplacement cxBodyF)) :=
  (constructFunction_prefix_exact cxFunF cxBlock cxClass [] [] cxCode 14).2
    cxBodyF rfl (by decide)

/-- Counterexample to C4 as stated: a method that is a direct member of a
container's body block — a `class_body` inside a `class_declaration`, both
categories the collapser itself treats as container scaffolding
(`class_declaration` is a collapsed-node constructor key and `class_body` a
container body-block type) — is rendered with no container prefix at all. -/
theorem constructFunction_prefix_exact_counterexample :
    constructFunctionDefinitionChunk nestFun [nestClassBody, nestClassDecl]
        nestCode 1000 =
      some "void h() \x7b ... \x7d".data ∧
    collapsedNodeConstructorKeys.contains "class_declaration" = true ∧
    CLASS_BLOCK_TYPES.contains "class_body" = true ∧
    "void h() \x7b ... \x7d".data ≠
      ("class B ".data ++ "...\n\n".data ++ "  ".data ++
        "void h() \x7b ... \x7d".data) := by
  decide

theorem splitWS_count (t : List Char) :
    (∀ cur, (splitWSAux t cur).length = pRunsAux jsWS false t + 1) ∧
    (skipWSRun t).length = pRunsAux jsWS true t + 1 := by
  induction t with
  | nil =>
    constructor
    · intro cur
      simp [splitWSAux, pRunsAux]
    · simp [skipWSRun, pRunsAux]
  | cons c rest ih =>
    constructor
    · intro cur
      by_cases h : jsWS c
      · simp [splitWSAux, pRunsAux, h, ih.2]
        omega
      · simp [splitWSAux, pRunsAux, h, ih.1 (c :: cur)]
    · by_cases h : jsWS c
      · simp [skipWSRun, pRunsAux, h, ih.2]
      · simp [skipWSRun, pRunsAux, h, ih.1 [c]]

theorem lastWS_cons (c : Char) (cs : List Char) :
    lastWS (c :: cs) = if cs.isEmpty then jsWS c else lastWS cs := by
  cases cs with
  | nil => simp [lastWS]
  | cons d ds => simp [lastWS]

theorem runs_alternation (t : List Char) :
    (pRunsAux jsWS true t + 1 = specNonWSRunCount t +
      (if lastWS t then 1 else 0) + (if t = [] then 1 else 0)) ∧
    pRunsAux jsWS false t = pRunsAux (fun c => !jsWS c) true t +
      (if lastWS t then 1 else 0) := by
  induction t with
  | nil => simp [pRunsAux, specNonWSRunCount, lastWS]
  | cons c cs ih =>
    by_cases h : jsWS c
    · cases cs with
      | nil => simp [pRunsAux, specNonWSRunCount, lastWS, h]
      | cons d ds =>
        have hq := ih.1
        have e1 : pRunsAux jsWS true (c :: d :: ds) =
            pRunsAux jsWS true (d :: ds) := by
          simp [pRunsAux, h]
        have e2 : pRunsAux jsWS false (c :: d :: ds) =
            1 + pRunsAux jsWS true (d :: ds) := by
          simp [pRunsAux, h]
        have e3 : specNonWSRunCount (c :: d :: ds) =
            specNonWSRunCount (d :: ds) := by
          simp [specNonWSRunCount, pRunsAux, h]
        have e4 : pRunsAux (fun x => !jsWS x) true (c :: d :: ds) =
            specNonWSRunCount (d :: ds) := by
          simp [specNonWSRunCount, pRunsAux, h]
        have e5 : lastWS (c :: d :: ds) = lastWS (d :: ds) := by
          rw [lastWS_cons]
          simp
        simp only [reduceCtorEq, if_false] at hq ⊢
        constructor
        · rw [e1, e3, e5]
          omega
        · rw [e2, e4, e5]
          omega
    · cases cs with
      | nil => simp [pRunsAux, specNonWSRunCount, lastWS, h]
      | cons d ds =>
        have hb : jsWS c = false := by
          simpa using h
        have hr := ih.2
        have e1 : pRunsAux jsWS true (c :: d :: ds) =
            pRunsAux jsWS false (d :: ds) := by
          simp [pRunsAux, hb]
        have e2 : pRunsAux jsWS false (c :: d :: ds) =
            pRunsAux jsWS false (d :: ds) := by
          simp [pRunsAux, hb]
        have e3 : specNonWSRunCount (c :: d :: ds) =
            1 + pRunsAux (fun x => !jsWS x) true (d :: ds) := by
          simp [specNonWSRunCount, pRunsAux, hb]
        have e4 : pRunsAux (fun x => !jsWS x) true (c :: d :: ds) =
            pRunsAux (fun x => !jsWS x) true (d :: ds) := by
          simp [pRunsAux, hb]
        have e5 : lastWS (c :: d :: ds) = lastWS (d :: ds) := by
          rw [lastWS_cons]
          simp
        simp only [reduceCtorEq, if_false] at hr ⊢
        constructor
        · rw [e1, e3, e5]
          omega
        · rw [e2, e4, e5]
          omega

/-- C6 (amended): the default estimator `countTokens` returns the number of
maximal non-whitespace runs plus one extra token for leading whitespace,
plus one for trailing whitespace, and returns 1 on the empty text — it
equals the spec's run count only for nonempty text with no leading or
trailing whitespace. -/
theorem countTokens_boundary_characterization (t : List Char) :
    countTokens t = specNonWSRunCount t + (if headWS t then 1 else 0) +
      (if lastWS t then 1 else 0) + (if t = [] then 1 else 0) := by
  have hA : countTokens t = pRunsAux jsWS false t + 1 := (splitWS_count t).1 []
  cases t with
  | nil => decide
  | cons c cs =>
    rw [hA]
    by_cases h : jsWS c
    · cases cs with
      | nil => simp [pRunsAux, specNonWSRunCount, lastWS, headWS, h]
      | cons d ds =>
        have hq := (runs_alternation (d :: ds)).1
        have e2 : pRunsAux jsWS false (c :: d :: ds) =
            1 + pRunsAux jsWS true (d :: ds) := by
          simp [pRunsAux, h]
        have e3 : specNonWSRunCount (c :: d :: ds) =
            specNonWSRunCount (d :: ds) := by
          simp [specNonWSRunCount, pRunsAux, h]
        have e5 : lastWS (c :: d :: ds) = lastWS (d :: ds) := by
          rw [lastWS_cons]
          simp
        have e6 : headWS (c :: d :: ds) = true := by
          simp [headWS, h]
        simp only [reduceCtorEq, if_false] at hq ⊢
        rw [e2, e3, e5, e6]
        simp only [if_true]
        omega
    · cases cs with
      | nil => simp [pRunsAux, specNonWSRunCount, lastWS, headWS, h]
      | cons d ds =>
        have hb : jsWS c = false := by
          simpa using h
        have hr := (runs_alternation (d :: ds)).2
        have e2 : pRunsAux jsWS false (c :: d :: ds) =
            pRunsAux jsWS false (d :: ds) := by
          simp [pRunsAux, hb]
        have e3 : specNonWSRunCount (c :: d :: ds) =
            1 + pRunsAux (fun x => !jsWS x) true (d :: ds) := by
          simp [specNonWSRunCount, pRunsAux, hb]
        have e5 : lastWS (c :: d :: ds) = lastWS (d :: ds) := by
          rw [lastWS_cons]
          simp
        have e6 : headWS (c :: d :: ds) = false := by
          simp [headWS, hb]
        simp only [reduceCtorEq, if_false] at hr ⊢
        rw [e2, e3, e5, e6]
        simp only [Bool.false_eq_true, if_false]
        omega

/-- Counterexample to C6 as stated: on the text `" a"` the estimator returns
2 (JavaScript split on leading whitespace yields a leading empty token), but
the number of maximal non-whitespace runs is 1. -/
theorem countTokens_boundary_characterization_counterexample :
    countTokens " a".data = 2 ∧ specNonWSRunCount " a".data = 1 ∧
    countTokens "".data = 1 := by
  decide

theorem pRunsAux_cons (p : Char → Bool) (b : Bool) (c : Char)
    (cs : List Char) :
    pRunsAux p b (c :: cs) =
      if p c then (if b then 0 else 1) + pRunsAux p true cs
      else pRunsAux p false cs := rfl

theorem trimRight_eq_nil_iff (y : List Char) :
    trimRight y = [] ↔ ∀ c ∈ y, jsWS c = true := by
  induction y with
  | nil => simp [trimRight]
  | cons c cs ih =>
    unfold trimRight
    cases ht : trimRight cs with
    | nil =>
      by_cases h : jsWS c
      · simp only [h, if_true]
        constructor
        · intro _ x hx
          rcases List.mem_cons.mp hx with hx | hx
          · rw [hx]
            exact h
          · exact (ih.mp ht) x hx
        · intro _
          trivial
      · simp only [h, if_false]
        constructor
        · intro hh
          cases hh
        · intro hall
          exact absurd (hall c (List.mem_cons_self c cs)) h
    | cons r rs =>
      have : ¬ ∀ x ∈ cs, jsWS x = true := by
        intro hall
        rw [ih.mpr hall] at ht
        cases ht
      simp only [List.mem_cons]
      constructor
      · intro hh
        cases hh
      · intro hall
        exact absurd (fun x hx => hall x (Or.inr hx)) this

theorem pRunsAux_nonWS_all_ws (y : List Char) (hall : ∀ c ∈ y, jsWS c = true) :
    ∀ b, pRunsAux (fun x => !jsWS x) b y = 0 := by
  induction y with
  | nil => intro b; rfl
  | cons c cs ih =>
    intro b
    have hc : jsWS c = true := hall c (List.mem_cons_self c cs)
    have ih' := ih (fun x hx => hall x (List.mem_cons_of_mem c hx))
    simp [pRunsAux, hc, ih']

theorem pRunsAux_nonWS_eq_zero_all_ws (y : List Char)
    (h : pRunsAux (fun x => !jsWS x) false y = 0) :
    ∀ c ∈ y, jsWS c = true := by
  induction y with
  | nil => simp
  | cons c cs ih =>
    by_cases hc : jsWS c
    · intro x hx
      rcases List.mem_cons.mp hx with hx | hx
      · rw [hx]; exact hc
      · have h' : pRunsAux (fun x => !jsWS x) false cs = 0 := by
          simpa [pRunsAux, hc] using h
        exact ih h' x hx
    · exfalso
      have hb : jsWS c = false := by simpa using hc
      simp [pRunsAux, hb] at h

theorem pRunsAux_nonWS_trimRight (y : List Char) :
    ∀ b, pRunsAux (fun x => !jsWS x) b (trimRight y) =
      pRunsAux (fun x => !jsWS x) b y := by
  induction y with
  | nil => intro b; rfl
  | cons c cs ih =>
    intro b
    unfold trimRight
    cases ht : trimRight cs with
    | nil =>
      have hall : ∀ x ∈ cs, jsWS x = true := (trimRight_eq_nil_iff cs).mp ht
      by_cases h : jsWS c
      · simp [pRunsAux, h, pRunsAux_nonWS_all_ws cs hall]
      · have hb : jsWS c = false := by simpa using h
        simp [pRunsAux, hb, pRunsAux_nonWS_all_ws cs hall]
    | cons r rs =>
      dsimp only
      have htail1 : pRunsAux (fun x => !jsWS x) false (r :: rs) =
          pRunsAux (fun x => !jsWS x) false cs := by
        rw [← ht]
        exact ih false
      have htail2 : pRunsAux (fun x => !jsWS x) true (r :: rs) =
          pRunsAux (fun x => !jsWS x) true cs := by
        rw [← ht]
        exact ih true
      rw [pRunsAux_cons (fun x => !jsWS x) b c (r :: rs),
        pRunsAux_cons (fun x => !jsWS x) b c cs]
      by_cases h : jsWS c
      · simp only [h, Bool.not_true, Bool.false_eq_true, if_false]
        exact htail1
      · have hb : jsWS c = false := by simpa using h
        simp only [hb, Bool.not_false, if_true]
        rw [htail2]

theorem pRunsAux_nonWS_dropWhile (x : List Char) :
    pRunsAux (fun c => !jsWS c) false (x.dropWhile jsWS) =
      pRunsAux (fun c => !jsWS c) false x := by
  induction x with
  | nil => rfl
  | cons c cs ih =>
    by_cases h : jsWS c
    · simp [List.dropWhile, h, ih, pRunsAux]
    · have hb : jsWS c = false := by simpa using h
      simp [List.dropWhile, hb]

theorem specNonWSRunCount_jsTrim (x : List Char) :
    specNonWSRunCount (jsTrim x) = specNonWSRunCount x := by
  unfold jsTrim specNonWSRunCount
  rw [pRunsAux_nonWS_trimRight (x.dropWhile jsWS) false]
  exact pRunsAux_nonWS_dropWhile x

theorem jsTrim_eq_nil_iff (x : List Char) :
    jsTrim x = [] ↔ specNonWSRunCount x = 0 := by
  unfold jsTrim
  constructor
  · intro h
    have hall : ∀ c ∈ x.dropWhile jsWS, jsWS c = true :=
      (trimRight_eq_nil_iff _).mp h
    have hallx : ∀ c ∈ x, jsWS c = true := by
      intro c hc
      rw [← List.takeWhile_append_dropWhile (p := jsWS) (l := x)] at hc
      rcases List.mem_append.mp hc with hc | hc
      · exact List.mem_takeWhile_imp hc
      · exact hall c hc
    exact pRunsAux_nonWS_all_ws x hallx false
  · intro h
    have hall := pRunsAux_nonWS_eq_zero_all_ws x h
    have : x.dropWhile jsWS = [] := List.dropWhile_eq_nil_iff.mpr hall
    rw [this]
    rfl

theorem headWS_dropWhile (x : List Char) :
    headWS (x.dropWhile jsWS) = false := by
  induction x with
  | nil => rfl
  | cons c cs ih =>
    by_cases h : jsWS c
    · simpa [List.dropWhile, h] using ih
    · have hb : jsWS c = false := by simpa using h
      simp [List.dropWhile, hb, headWS]

theorem headWS_trimRight (y : List Char) :
    headWS (trimRight y) = headWS y ∨ trimRight y = [] := by
  cases y with
  | nil => exact Or.inr rfl
  | cons c cs =>
    unfold trimRight
    cases ht : trimRight cs with
    | nil =>
      by_cases h : jsWS c
      · simp [h]
      · have hb : jsWS c = false := by simpa using h
        simp [hb, headWS]
    | cons r rs => simp [headWS]

theorem lastWS_trimRight (y : List Char) : lastWS (trimRight y) = false := by
  induction y with
  | nil => rfl
  | cons c cs ih =>
    unfold trimRight
    cases ht : trimRight cs with
    | nil =>
      by_cases h : jsWS c
      · simp [h, lastWS]
      · have hb : jsWS c = false := by simpa using h
        simp [hb, lastWS, headWS]
    | cons r rs =>
      dsimp only
      rw [lastWS_cons]
      simp only [List.isEmpty_cons, Bool.false_eq_true, if_false]
      rw [← ht]
      exact ih

theorem countTokensTrim_eq (x : List Char) :
    countTokensTrim x =
      if specNonWSRunCount x = 0 then 1 else specNonWSRunCount x := by
  unfold countTokensTrim
  by_cases h : jsTrim x = []
  · rw [h, if_pos ((jsTrim_eq_nil_iff x).mp h)]
    decide
  · have hmaster := countTokens_boundary_characterization (jsTrim x)
    have hS : specNonWSRunCount (jsTrim x) = specNonWSRunCount x :=
      specNonWSRunCount_jsTrim x
    have hH : headWS (jsTrim x) = false := by
      unfold jsTrim at h ⊢
      rcases headWS_trimRight (x.dropWhile jsWS) with h1 | h1
      · rw [h1]
        exact headWS_dropWhile x
      · exact absurd h1 h
    have hL : lastWS (jsTrim x) = false := lastWS_trimRight _
    have hne : specNonWSRunCount x ≠ 0 := fun h0 =>
      h ((jsTrim_eq_nil_iff x).mpr h0)
    rw [hmaster, hS, hH, hL, if_neg hne]
    simp [h]

theorem joinNl_cons_cons (x y : List Char) (t : List (List Char)) :
    joinNl (x :: y :: t) = x ++ '\n' :: joinNl (y :: t) := by
  simp [joinNl, List.intercalate, List.intersperse]

theorem splitNl_no_newline (x : List Char) (h : '\n' ∉ x) :
    splitNl x = [x] := by
  induction x with
  | nil => rfl
  | cons c cs ih =>
    have hc : c ≠ '\n' := fun hh => h (hh ▸ List.mem_cons_self c cs)
    have hcs : '\n' ∉ cs := fun hh => h (List.mem_cons_of_mem c hh)
    simp [splitNl, hc, ih hcs]

theorem splitNl_append_newline (x r : List Char) (h : '\n' ∉ x) :
    splitNl (x ++ '\n' :: r) = x :: splitNl r := by
  induction x with
  | nil => simp [splitNl]
  | cons c cs ih =>
    have hc : c ≠ '\n' := fun hh => h (hh ▸ List.mem_cons_self c cs)
    have hcs : '\n' ∉ cs := fun hh => h (List.mem_cons_of_mem c hh)
    simp [splitNl, hc, ih hcs]

theorem splitNl_joinNl (ls : List (List Char)) (hne : ls ≠ [])
    (hnl : ∀ l ∈ ls, '\n' ∉ l) : splitNl (joinNl ls) = ls := by
  induction ls with
  | nil => exact absurd rfl hne
  | cons x t ih =>
    cases t with
    | nil =>
      have : joinNl [x] = x := by simp [joinNl, List.intercalate]
      rw [this]
      exact splitNl_no_newline x (hnl x (List.mem_cons_self x []))
    | cons y t2 =>
      rw [joinNl_cons_cons]
      rw [splitNl_append_newline x _ (hnl x (List.mem_cons_self x _))]
      rw [ih (by simp) (fun l hl => hnl l (List.mem_cons_of_mem x hl))]

theorem splitNl_ne_nil (c : List Char) : splitNl c ≠ [] := by
  cases c with
  | nil => simp [splitNl]
  | cons d cs =>
    unfold splitNl
    by_cases h : d = '\n'
    · simp [h]
    · simp only [h, if_false]
      cases hs : splitNl cs <;> simp

theorem splitNl_mem_no_newline (c : List Char) :
    ∀ l ∈ splitNl c, '\n' ∉ l := by
  induction c with
  | nil =>
    intro l hl
    simp [splitNl] at hl
    simp [hl]
  | cons d cs ih =>
    intro l hl
    by_cases h : d = '\n'
    · rw [h] at hl
      simp only [splitNl, if_pos rfl] at hl
      rcases List.mem_cons.mp hl with hl | hl
      · simp [hl]
      · exact ih l hl
    · simp only [splitNl, h, if_false] at hl
      cases hs : splitNl cs with
      | nil => exact absurd hs (splitNl_ne_nil cs)
      | cons l0 ls0 =>
        rw [hs] at hl
        rcases List.mem_cons.mp hl with hl | hl
        · rw [hl]
          intro hmem
          rcases List.mem_cons.mp hmem with hh | hh
          · exact h hh.symm
          · exact ih l0 (hs ▸ List.mem_cons_self l0 ls0) hh
        · exact ih l (hs ▸ List.mem_cons_of_mem l0 hl)

theorem joinNl_splitNl (c : List Char) : joinNl (splitNl c) = c := by
  induction c with
  | nil => rfl
  | cons d cs ih =>
    by_cases h : d = '\n'
    · rw [h]
      have hsplit : splitNl ('\n' :: cs) = [] :: splitNl cs := rfl
      rw [hsplit]
      cases hs : splitNl cs with
      | nil => exact absurd hs (splitNl_ne_nil cs)
      | cons l0 ls0 =>
        rw [joinNl_cons_cons, List.nil_append, ← hs, ih]
    · have hsplit : splitNl (d :: cs) =
          match splitNl cs with
          | l :: ls => (d :: l) :: ls
          | [] => [[d]] := by
        conv_lhs => rw [splitNl]
        rw [if_neg h]
      rw [hsplit]
      cases hs : splitNl cs with
      | nil => exact absurd hs (splitNl_ne_nil cs)
      | cons l0 ls0 =>
        dsimp only
        have hjoin : joinNl ((d :: l0) :: ls0) = d :: joinNl (l0 :: ls0) := by
          cases ls0 with
          | nil => simp [joinNl, List.intercalate]
          | cons z zs =>
            rw [joinNl_cons_cons, joinNl_cons_cons]
            simp
        rw [hjoin, ← hs, ih]

theorem blankLine_runs_zero (x : List Char) (h : blankLine x = true) :
    specNonWSRunCount x = 0 := by
  unfold blankLine at h
  exact (jsTrim_eq_nil_iff x).mp (List.isEmpty_iff.mp h)

theorem foldr_blank_push (p : List (List Char))
    (hp : ∀ x ∈ p, blankLine x = true)
    (q d0 : List (List Char)) :
    p.foldr normStep (q, d0) = (p ++ q, d0) := by
  induction p with
  | nil => rfl
  | cons x rest ih =>
    rw [List.foldr_cons,
      ih (fun y hy => hp y (List.mem_cons_of_mem x hy))]
    simp [normStep, hp x (List.mem_cons_self x rest)]

theorem normFold_invariant (ls : List (List Char)) :
    (∀ x ∈ (ls.foldr normStep ([], [])).1, blankLine x = true) ∧
    List.foldr normStep ([], []) (ls.foldr normStep ([], [])).2 =
      ([], (ls.foldr normStep ([], [])).2) ∧
    (∀ x ∈ (ls.foldr normStep ([], [])).1, x ∈ ls) ∧
    (∀ x ∈ (ls.foldr normStep ([], [])).2, x ∈ ls) ∧
    (((ls.foldr normStep ([], [])).1 ++
        (ls.foldr normStep ([], [])).2).map specNonWSRunCount).sum =
      (ls.map specNonWSRunCount).sum := by
  induction ls with
  | nil => exact ⟨by simp, rfl, by simp, by simp, rfl⟩
  | cons l t ih =>
    obtain ⟨ih1, ih2, ih3, ih4, ih5⟩ := ih
    cases hpd : t.foldr normStep ([], []) with
    | mk p d =>
      rw [hpd] at ih1 ih2 ih3 ih4 ih5
      dsimp only at ih1 ih2 ih3 ih4 ih5
      rw [List.foldr_cons, hpd]
      by_cases hb : blankLine l
      · rw [show normStep l (p, d) = (l :: p, d) from by simp [normStep, hb]]
        refine ⟨?_, ih2, ?_, ?_, ?_⟩
        · intro x hx
          rcases List.mem_cons.mp hx with hx | hx
          · rw [hx]
            exact hb
          · exact ih1 x hx
        · intro x hx
          rcases List.mem_cons.mp hx with hx | hx
          · rw [hx]
            exact List.mem_cons_self l t
          · exact List.mem_cons_of_mem l (ih3 x hx)
        · intro x hx
          exact List.mem_cons_of_mem l (ih4 x hx)
        · have hS : specNonWSRunCount l = 0 := blankLine_runs_zero l hb
          simp only [List.cons_append, List.map_cons, List.sum_cons, hS,
            Nat.zero_add]
          exact ih5
      · rw [show normStep l (p, d) =
            ([], l :: (if 2 ≤ p.length then d else p ++ d)) from by
          simp [normStep, hb]]
        have hpS : (p.map specNonWSRunCount).sum = 0 :=
          List.sum_eq_zero (by
            intro x hx
            rcases List.mem_map.mp hx with ⟨y, hy, hxy⟩
            rw [← hxy]
            exact blankLine_runs_zero y (ih1 y hy))
        by_cases hlen : 2 ≤ p.length
        · rw [if_pos hlen]
          refine ⟨by simp, ?_, by simp, ?_, ?_⟩
          · rw [List.foldr_cons, ih2]
            simp [normStep, hb]
          · intro x hx
            rcases List.mem_cons.mp hx with hx | hx
            · rw [hx]
              exact List.mem_cons_self l t
            · exact List.mem_cons_of_mem l (ih4 x hx)
          · simp only [List.nil_append, List.map_cons, List.sum_cons,
              List.map_append, List.sum_append] at ih5 ⊢
            omega
        · rw [if_neg hlen]
          refine ⟨by simp, ?_, by simp, ?_, ?_⟩
          · rw [List.foldr_cons, List.foldr_append, ih2,
              foldr_blank_push p ih1 [] d, List.append_nil]
            simp [normStep, hb, hlen]
          · intro x hx
            rcases List.mem_cons.mp hx with hx | hx
            · rw [hx]
              exact List.mem_cons_self l t
            · rcases List.mem_append.mp hx with hx | hx
              · exact List.mem_cons_of_mem l (ih3 x hx)
              · exact List.mem_cons_of_mem l (ih4 x hx)
          · simp only [List.nil_append, List.map_cons, List.sum_cons,
              List.map_append, List.sum_append] at ih5 ⊢
            omega

theorem collapseBlankGroups_mem (ls : List (List Char)) :
    ∀ x ∈ collapseBlankGroups ls, x ∈ ls := by
  intro x hx
  obtain ⟨_, _, h3, h4, _⟩ := normFold_invariant ls
  unfold collapseBlankGroups at hx
  rcases List.mem_append.mp hx with hx | hx
  · exact h3 x hx
  · exact h4 x hx

theorem collapseBlankGroups_ne_nil (ls : List (List Char)) (h : ls ≠ []) :
    collapseBlankGroups ls ≠ [] := by
  cases ls with
  | nil => exact absurd rfl h
  | cons l t =>
    unfold collapseBlankGroups
    rw [List.foldr_cons]
    cases hpd : t.foldr normStep ([], []) with
    | mk p d =>
      by_cases hb : blankLine l
      · simp [normStep, hb]
      · simp [normStep, hb]

theorem collapseBlankGroups_idem (ls : List (List Char)) :
    collapseBlankGroups (collapseBlankGroups ls) = collapseBlankGroups ls := by
  obtain ⟨h1, h2, _, _, _⟩ := normFold_invariant ls
  unfold collapseBlankGroups
  cases hpd : ls.foldr normStep ([], []) with
  | mk p d =>
    rw [hpd] at h1 h2
    dsimp only at h1 h2 ⊢
    rw [List.foldr_append, h2, foldr_blank_push p h1 [] d, List.append_nil]

theorem collapseBlankGroups_sum (ls : List (List Char)) :
    ((collapseBlankGroups ls).map specNonWSRunCount).sum =
      (ls.map specNonWSRunCount).sum := by
  obtain ⟨_, _, _, _, h5⟩ := normFold_invariant ls
  exact h5

/-- C7: the whitespace-group normalization applied after eviction is
idempotent — applying it twice to any text yields the same string as
applying it once. -/
theorem jsNormalize_idempotent (c : List Char) :
    jsNormalize (jsNormalize c) = jsNormalize c := by
  unfold jsNormalize
  have hnl : ∀ l ∈ collapseBlankGroups (splitNl c), '\n' ∉ l := fun l hl =>
    splitNl_mem_no_newline c l (collapseBlankGroups_mem (splitNl c) l hl)
  rw [splitNl_joinNl (collapseBlankGroups (splitNl c))
    (collapseBlankGroups_ne_nil (splitNl c) (splitNl_ne_nil c)) hnl]
  rw [collapseBlankGroups_idem]

theorem pRunsAux_nonWS_append_newline (xs ys : List Char) :
    ∀ b, pRunsAux (fun c => !jsWS c) b (xs ++ '\n' :: ys) =
      pRunsAux (fun c => !jsWS c) b xs +
        pRunsAux (fun c => !jsWS c) false ys := by
  induction xs with
  | nil =>
    intro b
    rw [List.nil_append, pRunsAux_cons (fun c => !jsWS c) b '\n' ys,
      if_neg (by decide),
      show pRunsAux (fun c => !jsWS c) b [] = 0 from rfl]
    omega
  | cons x rest ih =>
    intro b
    rw [List.cons_append,
      pRunsAux_cons (fun c => !jsWS c) b x (rest ++ '\n' :: ys),
      pRunsAux_cons (fun c => !jsWS c) b x rest]
    by_cases h : (!jsWS x) = true
    · rw [if_pos h, if_pos h, ih true]
      omega
    · rw [if_neg h, if_neg h, ih false]

theorem specNonWSRunCount_joinNl (ls : List (List Char)) :
    specNonWSRunCount (joinNl ls) = (ls.map specNonWSRunCount).sum := by
  induction ls with
  | nil => rfl
  | cons x t ih =>
    cases t with
    | nil => simp [joinNl, List.intercalate]
    | cons y t2 =>
      rw [joinNl_cons_cons]
      unfold specNonWSRunCount at ih ⊢
      rw [pRunsAux_nonWS_append_newline x (joinNl (y :: t2)) false, ih]
      simp

theorem specNonWSRunCount_jsNormalize (c : List Char) :
    specNonWSRunCount (jsNormalize c) = specNonWSRunCount c := by
  unfold jsNormalize
  rw [specNonWSRunCount_joinNl, collapseBlankGroups_sum,
    ← specNonWSRunCount_joinNl, joinNl_splitNl]

theorem countTokensTrim_jsNormalize (c : List Char) :
    countTokensTrim (jsNormalize c) = countTokensTrim c := by
  rw [countTokensTrim_eq, countTokensTrim_eq, specNonWSRunCount_jsNormalize]

/-- C1 (amended): for every container collapse, either the eviction loop's
own estimate of the emitted rendering — `countTokens` of the trimmed text —
is at most (not strictly less than) the budget, or every evictable unit was
removed from the unit list before the loop stopped.  The blank-line
normalization applied when a child was removed does not change that
estimate. -/
theorem collapseChildren_fit_or_exhausted (node : SNode) (code : List Char)
    (blockTypes collapseTypes collapseBlockTypes : List String)
    (maxChunkSize : Nat) :
    countTokensTrim (collapseChildren node code blockTypes collapseTypes
        collapseBlockTypes maxChunkSize) ≤ maxChunkSize ∨
    (collapseChildrenRun node code blockTypes collapseTypes
        collapseBlockTypes maxChunkSize).units = [] := by
  obtain ⟨k, hk, hu, hp, hcond⟩ :=
    evictLoopW_spec countTokensTrim maxChunkSize
      ((collapsePhase1 node code blockTypes collapseTypes
          collapseBlockTypes).2).length
      ⟨(collapsePhase1 node code blockTypes collapseTypes
          collapseBlockTypes).1,
        (collapsePhase1 node code blockTypes collapseTypes
          collapseBlockTypes).2, false, []⟩ rfl
  have hdef : collapseChildrenRun node code blockTypes collapseTypes
      collapseBlockTypes maxChunkSize =
    evictLoopW countTokensTrim maxChunkSize
      ⟨(collapsePhase1 node code blockTypes collapseTypes
          collapseBlockTypes).1,
        (collapsePhase1 node code blockTypes collapseTypes
          collapseBlockTypes).2, false, []⟩ := rfl
  rw [← hdef] at hcond
  have hcc : collapseChildren node code blockTypes collapseTypes
      collapseBlockTypes maxChunkSize =
    (if (collapseChildrenRun node code blockTypes collapseTypes
          collapseBlockTypes maxChunkSize).removed then
      jsNormalize (collapseChildrenRun node code blockTypes collapseTypes
        collapseBlockTypes maxChunkSize).code
    else (collapseChildrenRun node code blockTypes collapseTypes
        collapseBlockTypes maxChunkSize).code) := rfl
  rcases hcond with h | h
  · left
    rw [hcc]
    split
    · rw [countTokensTrim_jsNormalize]
      exact h
    · exact h
  · right
    exact h

/-- Counterexample to C1 as stated: the example container does not fit
verbatim (15 tokens against a budget of 14, so the fallback path runs), its
collapsed rendering estimates at exactly 14 — not strictly under the
budget — and both evictable units are still in the unit list when the loop
stops. -/
theorem collapseChildren_fit_or_exhausted_counterexample :
    maybeYieldChunk cxClass cxCode 14 false = none ∧
    countTokens (collapseChildren cxClass cxCode CLASS_BLOCK_TYPES
      FUNCTION_DECLARATION_NODE_TYPES FUNCTION_BLOCK_NODE_TYPES 14) = 14 ∧
    countTokensTrim (collapseChildren cxClass cxCode CLASS_BLOCK_TYPES
      FUNCTION_DECLARATION_NODE_TYPES FUNCTION_BLOCK_NODE_TYPES 14) = 14 ∧
    (collapseChildrenRun cxClass cxCode CLASS_BLOCK_TYPES
      FUNCTION_DECLARATION_NODE_TYPES FUNCTION_BLOCK_NODE_TYPES 14).units ≠
      [] := by
  have h0 : collapseChildrenRun cxClass cxCode CLASS_BLOCK_TYPES
      FUNCTION_DECLARATION_NODE_TYPES FUNCTION_BLOCK_NODE_TYPES 14 =
    ⟨(collapsePhase1 cxClass cxCode CLASS_BLOCK_TYPES
        FUNCTION_DECLARATION_NODE_TYPES FUNCTION_BLOCK_NODE_TYPES).1,
      (collapsePhase1 cxClass cxCode CLASS_BLOCK_TYPES
        FUNCTION_DECLARATION_NODE_TYPES FUNCTION_BLOCK_NODE_TYPES).2,
      false, []⟩ :=
    evictLoopW_stop _ _ _ (by decide)
  have hcc : collapseChildren cxClass cxCode CLASS_BLOCK_TYPES
      FUNCTION_DECLARATION_NODE_TYPES FUNCTION_BLOCK_NODE_TYPES 14 =
    (if (collapseChildrenRun cxClass cxCode CLASS_BLOCK_TYPES
          FUNCTION_DECLARATION_NODE_TYPES FUNCTION_BLOCK_NODE_TYPES
          14).removed then
      jsNormalize (collapseChildrenRun cxClass cxCode CLASS_BLOCK_TYPES
        FUNCTION_DECLARATION_NODE_TYPES FUNCTION_BLOCK_NODE_TYPES 14).code
    else (collapseChildrenRun cxClass cxCode CLASS_BLOCK_TYPES
        FUNCTION_DECLARATION_NODE_TYPES FUNCTION_BLOCK_NODE_TYPES
        14).code) := rfl
  have h1 : collapseChildren cxClass cxCode CLASS_BLOCK_TYPES
      FUNCTION_DECLARATION_NODE_TYPES FUNCTION_BLOCK_NODE_TYPES 14 =
    (collapsePhase1 cxClass cxCode CLASS_BLOCK_TYPES
      FUNCTION_DECLARATION_NODE_TYPES FUNCTION_BLOCK_NODE_TYPES).1 := by
    rw [hcc, h0]
    rfl
  refine ⟨by decide, ?_, ?_, ?_⟩
  · rw [h1]
    decide
  · rw [h1]
    decide
  · rw [h0]
    decide

theorem extractNodeDetails_fst (node : SNode) (code : List Char)
    (ctx ctx' : Ctx) :
    (extractNodeDetails node code ctx).1 =
      (extractNodeDetails node code ctx').1 := by
  unfold extractNodeDetails
  split_ifs <;> rfl

theorem processNode_fst (node : SNode) (code : List Char)
    (filePath : Option (List Char)) (ctx ctx' : Ctx) :
    (processNode node code filePath ctx).1 =
      (extractNodeDetails node code ctx').1 := by
  rw [processNode]
  exact extractNodeDetails_fst node code _ ctx'

mutual

theorem gen_agree : ∀ (node : SNode) (anc : List SNode) (code : List Char)
    (maxChunkSize : Nat) (filePath : Option (List Char)) (root : Bool)
    (ctx1 ctx2 : Ctx),
    (getSmartCollapsedChunks1 node anc code maxChunkSize filePath root
        ctx1).1 =
      (getSmartCollapsedChunks2 node anc code maxChunkSize root ctx2).1 ∧
    (getSmartCollapsedChunks1 node anc code maxChunkSize filePath root
        ctx1).2.1 =
      (getSmartCollapsedChunks2 node anc code maxChunkSize root ctx2).2.1
  | node@(SNode.mk t f si ei sr er sc tx ch), anc, code, maxChunkSize,
      filePath, root, ctx1, ctx2 => by
    rw [getSmartCollapsedChunks1, getSmartCollapsedChunks2]
    cases hy : maybeYieldChunk (SNode.mk t f si ei sr er sc tx ch) code
        maxChunkSize root with
    | some ck =>
      dsimp only
      rw [processNode_fst _ _ _ ctx1 ctx2]
      exact ⟨rfl, rfl⟩
    | none =>
      dsimp only
      by_cases hk : collapsedNodeConstructorKeys.contains
          (SNode.mk t f si ei sr er sc tx ch).type
      · rw [if_pos hk, if_pos hk]
        cases hr : runCollapsedConstructor (SNode.mk t f si ei sr er sc tx ch)
            anc code maxChunkSize with
        | none => exact ⟨rfl, rfl⟩
        | some txt =>
          dsimp only
          have hrec := genList_agree ch
            (SNode.mk t f si ei sr er sc tx ch :: anc) code maxChunkSize
            filePath
            (processNode (SNode.mk t f si ei sr er sc tx ch) code filePath
              ctx1).2
            (extractNodeDetails (SNode.mk t f si ei sr er sc tx ch) code
              ctx2).2
          rw [processNode_fst _ _ _ ctx1 ctx2]
          exact ⟨by rw [hrec.1], hrec.2⟩
      · rw [if_neg hk, if_neg hk]
        exact genList_agree ch (SNode.mk t f si ei sr er sc tx ch :: anc)
          code maxChunkSize filePath ctx1 ctx2
  termination_by node _ _ _ _ _ _ _ => sizeOf node

theorem genList_agree : ∀ (l : List SNode) (anc : List SNode)
    (code : List Char) (maxChunkSize : Nat) (filePath : Option (List Char))
    (ctx1 ctx2 : Ctx),
    (getSmartCollapsedChunks1List l anc code maxChunkSize filePath ctx1).1 =
      (getSmartCollapsedChunks2List l anc code maxChunkSize ctx2).1 ∧
    (getSmartCollapsedChunks1List l anc code maxChunkSize filePath
        ctx1).2.1 =
      (getSmartCollapsedChunks2List l anc code maxChunkSize ctx2).2.1
  | [], anc, code, maxChunkSize, filePath, ctx1, ctx2 => by
    rw [getSmartCollapsedChunks1List, getSmartCollapsedChunks2List]
    exact ⟨rfl, rfl⟩
  | child :: rest, anc, code, maxChunkSize, filePath, ctx1, ctx2 => by
    rw [getSmartCollapsedChunks1List, getSmartCollapsedChunks2List]
    have hchild := gen_agree child anc code maxChunkSize filePath false
      ctx1 ctx2
    have hrest := genList_agree rest anc code maxChunkSize filePath
      (getSmartCollapsedChunks1 child anc code maxChunkSize filePath false
        ctx1).2.2
      (getSmartCollapsedChunks2 child anc code maxChunkSize false ctx2).2.2
    dsimp only
    rw [hchild.2]
    by_cases hok :
        (getSmartCollapsedChunks2 child anc code maxChunkSize false
          ctx2).2.1 = true
    · rw [if_pos hok, if_pos hok]
      exact ⟨by rw [hchild.1, hrest.1], hrest.2⟩
    · rw [if_neg hok, if_neg hok]
      exact ⟨hchild.1, rfl⟩
  termination_by l _ _ _ _ _ _ => sizeOf l

end

/-- C9: the two textual definitions of `getSmartCollapsedChunks` are
equivalent on the core contract: for every node, ancestor chain, source
text, budget, file path and pair of global-context states, they yield chunk
sequences whose `content`, `startLine` and `endLine` fields are pairwise
identical (indeed the yielded chunk records coincide outright, because both
spread a details record computed by the same `extractNodeDetails` value;
they differ only in threading `processNode`'s context updates). -/
theorem generators_core_equivalent (node : SNode) (anc : List SNode)
    (code : List Char) (maxChunkSize : Nat) (filePath : Option (List Char))
    (root : Bool) (ctx1 ctx2 : Ctx) :
    ((getSmartCollapsedChunks1 node anc code maxChunkSize filePath root
        ctx1).1).map chunkProj =
      ((getSmartCollapsedChunks2 node anc code maxChunkSize root
        ctx2).1).map chunkProj := by
  rw [(gen_agree node anc code maxChunkSize filePath root ctx1 ctx2).1]
